import Mathlib

/-!
Verification development for the client-pool / credential-caching core of
the `azure-client-pool` repository.

The embedding models, from the source:

* `src/utils/cache.ts` (the file appearing as `src/unnamed/part_021`):
  `CacheManager` over `@isaacs/ttlcache` with `updateAgeOnGet` and
  `checkAgeOnGet` both enabled, per-entry absolute expiry
  (`CacheEntry.absoluteExpiresAt`), the uncacheable branch
  (`absoluteTtl <= 0`), and the pending-request (single-flight) map.
* `src/client-pool/client-provider.ts`: `ClientProviderImpl.getClient`,
  `validateAuthContext`, `generateRawCacheKey`, `serializeOptions`.
  The per-call `customTtl` computed there is the per-entry absolute TTL
  consumed by `CacheManager.createInternal`.
* `src/credentials/manager.ts` (the current draft, `src/unnamed/part_026`):
  `CredentialManager.getCredential` / `getApplicationCredential` /
  `getDelegatedCredential` / `validateAndGetTokenContext` /
  `createApplicationRawCacheKey`.

Modelling conventions:

* Times and TTLs are integers (milliseconds), `Int`.
* Client and credential instances are identified by `Nat` tokens drawn from
  a fresh counter; "same instance" is equality of tokens.  A user factory
  or credential strategy invocation consumes one token, so a value equal to
  a previously produced token is a reused (cached) value and a value equal
  to the current counter is a freshly constructed one.
* `createHash("md5").digest("base64url")` is Node library code, not code of
  this repository; it is modelled as an abstract `digest : String → String`
  parameter.  Statements about key distinctness are made on the raw keys,
  which determine the stored keys.
* `JSON.stringify(v, replacerArray)` is modelled by `stringifyR`, including
  the ECMAScript behaviour that a replacer array is a property whitelist
  applied at every object level, with output fields in replacer order.
* Size-bound (LRU) eviction and entry disposal are not modelled; no claim
  below concerns them.
-/

namespace AzureClientPool

/-! ### Association-list primitives (the `Map` / `TTLCache` backing store) -/

def alookup {κ α : Type} [DecidableEq κ] (k : κ) : List (κ × α) → Option α
  | [] => none
  | (k₂, v) :: rest => if k₂ = k then some v else alookup k rest

def aremove {κ α : Type} [DecidableEq κ] (k : κ) : List (κ × α) → List (κ × α)
  | [] => []
  | (k₂, v) :: rest => if k₂ = k then aremove k rest else (k₂, v) :: aremove k rest

def aset {κ α : Type} [DecidableEq κ] (k : κ) (v : α) (m : List (κ × α)) :
    List (κ × α) :=
  (k, v) :: aremove k m

/-! ### JSON values and `JSON.stringify` with a replacer array

`JValue` models the JSON-serializable option values passed to `getClient`.
`jsKeys` models `Object.keys` (field names for objects, index strings for
arrays and strings, empty for other primitives; `Object.keys(null)` throws,
handled at the call site).  -/

inductive JValue where
  | jnull
  | jbool (b : Bool)
  | jnum (n : Int)
  | jstr (s : String)
  | jarr (xs : List JValue)
  | jobj (fields : List (String × JValue))

def jsKeys : JValue → List String
  | .jobj fs => fs.map Prod.fst
  | .jarr xs => (List.range xs.length).map toString
  | .jstr s => (List.range s.length).map toString
  | _ => []

def escapeChar (ch : Char) : String :=
  if ch = '"' then "\\\""
  else if ch = '\\' then "\\\\"
  else if ch = '\n' then "\\n"
  else if ch = '\t' then "\\t"
  else if ch = '\r' then "\\r"
  else if ch.toNat < 32 then
    let hexDigit := fun (n : Nat) =>
      if n < 10 then Char.ofNat (48 + n) else Char.ofNat (87 + n)
    "\\u00" ++ String.mk [hexDigit (ch.toNat / 16), hexDigit (ch.toNat % 16)]
  else String.singleton ch

def jsonEscape (s : String) : String := String.join (s.data.map escapeChar)

def jsonQuote (s : String) : String := "\"" ++ jsonEscape s ++ "\""

mutual

/-- Model of `JSON.stringify(v, K)` where `K` is a replacer array: at every
(non-array) object, only properties named in `K` are kept, in the order of
`K`; arrays keep all elements. -/
def stringifyR (K : List String) : JValue → String
  | .jnull => "null"
  | .jbool b => if b then "true" else "false"
  | .jnum n => toString n
  | .jstr s => jsonQuote s
  | .jarr xs => "[" ++ String.intercalate "," (stringifyList K xs) ++ "]"
  | .jobj fs =>
      "\x7b" ++ String.intercalate ","
        (K.filterMap (fun k =>
          (alookup k (stringifyFields K fs)).map
            (fun rv => jsonQuote k ++ ":" ++ rv))) ++ "\x7d"

def stringifyList (K : List String) : List JValue → List String
  | [] => []
  | x :: xs => stringifyR K x :: stringifyList K xs

def stringifyFields (K : List String) :
    List (String × JValue) → List (String × String)
  | [] => []
  | (k, v) :: fs => (k, stringifyR K v) :: stringifyFields K fs

end

/-! ### Deep equality modulo object key order, and well-formedness -/

mutual

/-- Well-formed JSON value: object key lists are duplicate-free at every
level (as JS object literals are). -/
def jwf : JValue → Bool
  | .jnull | .jbool _ | .jnum _ | .jstr _ => true
  | .jarr xs => jwfList xs
  | .jobj fs => decide ((fs.map Prod.fst).Nodup) && jwfFields fs

def jwfList : List JValue → Bool
  | [] => true
  | x :: xs => jwf x && jwfList xs

def jwfFields : List (String × JValue) → Bool
  | [] => true
  | (_, v) :: fs => jwf v && jwfFields fs

end

mutual

/-- Deep structural equality that ignores object key order (recursively,
including under arrays). -/
def deepEqMod : JValue → JValue → Bool
  | .jnull, .jnull => true
  | .jbool a, .jbool b => a == b
  | .jnum a, .jnum b => a == b
  | .jstr a, .jstr b => a == b
  | .jarr xs, .jarr ys => deepEqList xs ys
  | .jobj fs, .jobj gs => fs.length == gs.length && deepEqFields gs fs
  | _, _ => false

def deepEqList : List JValue → List JValue → Bool
  | [], [] => true
  | x :: xs, y :: ys => deepEqMod x y && deepEqList xs ys
  | _, _ => false

def deepEqFields (gs : List (String × JValue)) :
    List (String × JValue) → Bool
  | [] => true
  | (k, v) :: fs =>
      (match alookup k gs with
       | some w => deepEqMod v w
       | none => false) && deepEqFields gs fs

end

/-! ### The TTL cache (`@isaacs/ttlcache` as configured by `CacheManager`)

`CacheManager` constructs the cache with `updateAgeOnGet: true` and
`checkAgeOnGet: true`; an item set with `{ ttl }` expires once
`now ≥ setTime + ttl`, a fresh `get` restarts that countdown.  The cache
value type is `CacheEntry<T> = { value, absoluteExpiresAt? }`; client and
credential instances are `Nat` tokens. -/

structure CacheEntry where
  value : Nat
  absoluteExpiresAt : Option Int
  deriving Repr, DecidableEq

structure TtlItem where
  entry : CacheEntry
  itemTtl : Int
  ttlDeadline : Int
  deriving Repr, DecidableEq

abbrev Cache := List (String × TtlItem)

/-- `cache.get(k)` at time `now` with `checkAgeOnGet` (stale entries are
purged and missed) and `updateAgeOnGet` (fresh entries have their deadline
reset to `now + itemTtl`). -/
def ttlGet (now : Int) (k : String) (c : Cache) : Option CacheEntry × Cache :=
  match alookup k c with
  | none => (none, c)
  | some it =>
      if it.ttlDeadline ≤ now then (none, aremove k c)
      else (some it.entry, aset k { it with ttlDeadline := now + it.itemTtl } c)

/-- `cache.set(k, entry, { ttl })` at time `now`. -/
def ttlSet (now : Int) (k : String) (e : CacheEntry) (ttl : Int) (c : Cache) :
    Cache :=
  aset k { entry := e, itemTtl := ttl, ttlDeadline := now + ttl } c

/-- The background purge the cache performs by timer: by time `t`, every
item whose deadline is `≤ t` has been removed. -/
def purgeAt (t : Int) (c : Cache) : Cache :=
  c.filter (fun kv => decide (t < kv.2.ttlDeadline))

def cacheSize (c : Cache) : Nat := c.length

/-! ### `CacheManager` (sequential view)

`getOrCreate` / `createInternal` from `src/utils/cache.ts`, with the
factory modelled as the fresh-token generator (`nextId`): every invocation
returns the current counter and bumps it, so the result of an invocation
is a brand-new value.  The `invoked` flag records whether this call ran the
factory.  `contextInfo` is logging-only and omitted. -/

structure CacheOptions where
  slidingTtl : Option Int := none
  absoluteTtl : Option Int := none
  deriving Repr, DecidableEq

structure GocResult where
  value : Nat
  cache : Cache
  nextId : Nat
  invoked : Bool
  deriving Repr, DecidableEq

/-- `CacheManager.createInternal`: run the factory, then either return the
value uncached (`absoluteTtl ≤ 0`, deleting whatever sits under the key) or
store it with sliding TTL clamped to the absolute TTL and
`effectiveTtl = max(slidingTtl, 1)`. -/
def createInternal (defSliding : Int) (k : String) (opts : CacheOptions)
    (now : Int) (c : Cache) (ctr : Nat) : GocResult :=
  let value := ctr
  let sliding₀ := opts.slidingTtl.getD defSliding
  match opts.absoluteTtl with
  | some a =>
      if a ≤ 0 then
        { value := value, cache := aremove k c, nextId := ctr + 1, invoked := true }
      else
        let sliding := if sliding₀ > a then a else sliding₀
        let eff := max sliding 1
        { value := value
          cache := ttlSet now k { value := value, absoluteExpiresAt := some (now + a) } eff c
          nextId := ctr + 1
          invoked := true }
  | none =>
      let eff := max sliding₀ 1
      { value := value
        cache := ttlSet now k { value := value, absoluteExpiresAt := none } eff c
        nextId := ctr + 1
        invoked := true }

/-- `CacheManager.getOrCreate`, sequential view (a single caller, so the
pending-request map is not consulted; the concurrent view is the event
machine below).  A cached entry past its absolute expiry is refreshed via
`createInternal`; note the `get` has already reset its sliding deadline. -/
def cmGetOrCreate (defSliding : Int) (k : String) (opts : CacheOptions)
    (now : Int) (c : Cache) (ctr : Nat) : GocResult :=
  match ttlGet now k c with
  | (some ce, c₁) =>
      match ce.absoluteExpiresAt with
      | some a =>
          if a ≤ now then createInternal defSliding k opts now c₁ ctr
          else { value := ce.value, cache := c₁, nextId := ctr, invoked := false }
      | none => { value := ce.value, cache := c₁, nextId := ctr, invoked := false }
  | (none, c₁) => createInternal defSliding k opts now c₁ ctr

/-! ### Auth contexts and the client provider (`client-provider.ts`) -/

structure TokenCtx where
  tenantId : String
  userObjectId : String
  userAssertion : String
  expiresAt : Int
  deriving Repr, DecidableEq

/-- `AuthContext`: the `application` variant carries no user fields; the
token-based variants (`delegated` / `composite`) carry a validated token
context. -/
inductive AuthContext where
  | application
  | delegated (t : TokenCtx)
  | composite (t : TokenCtx)
  deriving Repr, DecidableEq

def modeLit : AuthContext → String
  | .application => "application"
  | .delegated _ => "delegated"
  | .composite _ => "composite"

def tokenCtxOf : AuthContext → Option TokenCtx
  | .application => none
  | .delegated t => some t
  | .composite t => some t

inductive PoolError where
  | missingTenant
  | missingUser
  | tokenExpired
  | optionsNotSerializable
  deriving Repr, DecidableEq

structure PoolCfg where
  cacheKeyPrefix : String
  clientSlidingTtl : Int
  bufferMs : Int
  deriving Repr, DecidableEq

/-- `createStableCacheKey`: md5 + base64url of the raw key, with the digest
abstract (Node `crypto` is not code of this repository). -/
def createStableCacheKey (digest : String → String) (rawKey : String) : String :=
  digest rawKey

/-- `ClientProviderImpl.serializeOptions`:
`createStableCacheKey(JSON.stringify(options, Object.keys(options).sort()))`.
`Object.keys(null)` throws a `TypeError`, hence `none` for `jnull`. -/
def serializeOptions (digest : String → String) (o : JValue) : Option String :=
  match o with
  | .jnull => none
  | _ => some (createStableCacheKey digest
      (stringifyR ((jsKeys o).insertionSort (· ≤ ·)) o))

/-- `ClientProviderImpl.generateRawCacheKey`.  `fp` models the optional
user-supplied `clientFactory.getClientFingerprint`; a fingerprint is used
only when it is a truthy (non-empty) string. -/
def generateRawCacheKey (digest : String → String)
    (fp : Option (JValue → Option String)) (keyPrefix : String)
    (ctx : AuthContext) (options : Option JValue) : Option String :=
  let base := [keyPrefix, modeLit ctx] ++
    (match tokenCtxOf ctx with
     | none => []
     | some t => ["tenant:" ++ t.tenantId, "user:" ++ t.userObjectId])
  match options with
  | none => some (String.intercalate "::" base)
  | some o =>
      match fp.bind (fun f => f o) with
      | some s =>
          if s = "" then
            (serializeOptions digest o).map
              (fun h => String.intercalate "::" (base ++ ["options:" ++ h]))
          else some (String.intercalate "::" (base ++ ["fingerprint:" ++ s]))
      | none =>
          (serializeOptions digest o).map
            (fun h => String.intercalate "::" (base ++ ["options:" ++ h]))

/-- `ClientProviderImpl.getClient`, sequential view, operating on an already
constructed `AuthContext` (JWT validation is the external token validator).
Mirrors the source order: `validateAuthContext`, key building, the
token-expiry check and `customTtl = max(expiresAt − now − bufferMs, 1)`,
then `clientCache.getOrCreate` with `customTtl` as the entry's absolute
TTL.  Errors are raised before any cache mutation, so the state is returned
unchanged alongside them. -/
def getClientM (digest : String → String)
    (fp : Option (JValue → Option String)) (cfg : PoolCfg)
    (ctx : AuthContext) (options : Option JValue) (now : Int)
    (c : Cache) (ctr : Nat) : Except PoolError GocResult :=
  match tokenCtxOf ctx with
  | some t =>
      if t.tenantId = "" then .error .missingTenant
      else if t.userObjectId = "" then .error .missingUser
      else
        match generateRawCacheKey digest fp cfg.cacheKeyPrefix ctx options with
        | none => .error .optionsNotSerializable
        | some raw =>
            let key := createStableCacheKey digest raw
            if t.expiresAt ≤ now then .error .tokenExpired
            else
              let customTtl := max (t.expiresAt - now - cfg.bufferMs) 1
              .ok (cmGetOrCreate cfg.clientSlidingTtl key
                    { absoluteTtl := some customTtl } now c ctr)
  | none =>
      match generateRawCacheKey digest fp cfg.cacheKeyPrefix ctx options with
      | none => .error .optionsNotSerializable
      | some raw =>
          let key := createStableCacheKey digest raw
          .ok (cmGetOrCreate cfg.clientSlidingTtl key {} now c ctr)

/-! ### The credential manager (`credentials/manager.ts`, current draft)

Application credentials go through a `CacheManager` under the constant key
`prefix::application` with the configured absolute TTL; delegated
credentials are constructed by the delegated strategy on every call, with
no cache involved.  Strategy invocations draw fresh tokens from `nextCred`;
`delLog` records each delegated-strategy invocation together with the
credential it produced. -/

inductive CredentialType where
  | application
  | delegated
  deriving Repr, DecidableEq

inductive CredError where
  | authModeMismatch
  | tokenExpired
  deriving Repr, DecidableEq

structure CredCfg where
  cacheKeyPrefix : String
  credSlidingTtl : Int
  credAbsoluteTtl : Int
  deriving Repr, DecidableEq

structure CredState where
  appCache : Cache
  nextCred : Nat
  delLog : List (TokenCtx × Nat)
  deriving Repr, DecidableEq

/-- `CredentialManager.createApplicationRawCacheKey`:
`[prefix, CredentialType.Application].join("::")`. -/
def createApplicationRawCacheKey (cfg : CredCfg) : String :=
  String.intercalate "::" [cfg.cacheKeyPrefix, "application"]

/-- `CredentialManager.getApplicationCredential`: `getOrCreate` on the
application-credential cache with the configured absolute TTL. -/
def getApplicationCredentialM (digest : String → String) (cfg : CredCfg)
    (now : Int) (st : CredState) : Nat × CredState :=
  let key := createStableCacheKey digest (createApplicationRawCacheKey cfg)
  let r := cmGetOrCreate cfg.credSlidingTtl key
    { absoluteTtl := some cfg.credAbsoluteTtl } now st.appCache st.nextCred
  (r.value, { st with appCache := r.cache, nextCred := r.nextId })

/-- `CredentialManager.getDelegatedCredential`: `validateAndGetTokenContext`
rejects an application context; an expired assertion is rejected before the
strategy runs; otherwise `createDelegatedCredential(tokenContext)` is
invoked — no cache is consulted or written. -/
def getDelegatedCredentialM (ctx : AuthContext) (now : Int) (st : CredState) :
    Except CredError Nat × CredState :=
  match tokenCtxOf ctx with
  | none => (.error .authModeMismatch, st)
  | some t =>
      if t.expiresAt ≤ now then (.error .tokenExpired, st)
      else
        (.ok st.nextCred,
         { st with nextCred := st.nextCred + 1,
                   delLog := st.delLog ++ [(t, st.nextCred)] })

/-- `CredentialManager.getCredential`: dispatch on the requested credential
type. -/
def getCredentialM (digest : String → String) (cfg : CredCfg)
    (ctx : AuthContext) (authType : CredentialType) (now : Int)
    (st : CredState) : Except CredError Nat × CredState :=
  match authType with
  | .application =>
      let r := getApplicationCredentialM digest cfg now st
      (.ok r.1, r.2)
  | .delegated => getDelegatedCredentialM ctx now st

/-- A sequence of `getCredential(·, Delegated)` calls, in order. -/
def processDelegated (calls : List (AuthContext × Int)) (st : CredState) :
    List (Except CredError Nat) × CredState :=
  match calls with
  | [] => ([], st)
  | (ctx, now) :: rest =>
      let r := getDelegatedCredentialM ctx now st
      let rr := processDelegated rest r.2
      (r.1 :: rr.1, rr.2)

def okResults (rs : List (Except CredError Nat)) : List Nat :=
  rs.filterMap (fun r => match r with | .ok v => some v | .error _ => none)

/-- All credential tokens stored in a cache. -/
def cacheValues (c : Cache) : List Nat :=
  c.map (fun kv => kv.2.entry.value)

/-! ### Concurrent view of `CacheManager.getOrCreate` (event machine)

JavaScript runs callers one synchronous segment at a time, so concurrency
is modelled as an interleaving of atomic events:

* an *arrival* is the synchronous prefix of `getOrCreate` for one caller —
  `cache.get`, the absolute-expiry test, the pending lookup, and (on a
  miss) the synchronous start of `createInternal`, whose first statement
  invokes the factory, followed by `pendingRequests.set`;
* a *completion* is the settling of one in-flight factory promise: the
  remainder of `createInternal` (the store or the uncacheable delete) and
  the first caller's `finally` (`pendingRequests.delete`).

A caller whose arrival hit the cache got its value immediately; every other
caller receives the outcome of the flight its arrival was attached to.  On
the expired-entry refresh path (`getOrCreate` line
`return this.createInternal(...)` under the `absoluteExpiresAt` test) the
source neither consults nor records `pendingRequests`; such flights are
marked unregistered.  Factory invocations are logged as flights; a factory
completion produces a fresh client token. -/

inductive FOutcome where
  | ok (v : Nat)
  | err (e : Nat)
  deriving Repr, DecidableEq

inductive FlightState where
  | running (key : String) (opts : CacheOptions) (registered : Bool)
  | done (key : String) (outcome : FOutcome)
  deriving Repr, DecidableEq

structure MState where
  cache : Cache
  pending : List (String × Nat)
  flights : List (Nat × FlightState)
  nextFlight : Nat
  nextClient : Nat
  deriving Repr, DecidableEq

inductive ArrivalRes where
  | hit (v : Nat)
  | joined (f : Nat)
  | started (f : Nat)
  | startedRefresh (f : Nat)
  deriving Repr, DecidableEq

/-- One caller's synchronous entry into `getOrCreate`. -/
def arrive (now : Int) (k : String) (opts : CacheOptions) (s : MState) :
    ArrivalRes × MState :=
  match ttlGet now k s.cache with
  | (some ce, c₁) =>
      match ce.absoluteExpiresAt with
      | some a =>
          if a ≤ now then
            -- refresh path: `createInternal` is started directly, skipping
            -- both the pending lookup and the pending registration
            let f := s.nextFlight
            (.startedRefresh f,
             { s with cache := c₁,
                      flights := (f, .running k opts false) :: s.flights,
                      nextFlight := f + 1 })
          else (.hit ce.value, { s with cache := c₁ })
      | none => (.hit ce.value, { s with cache := c₁ })
  | (none, c₁) =>
      match alookup k s.pending with
      | some f => (.joined f, { s with cache := c₁ })
      | none =>
          let f := s.nextFlight
          (.started f,
           { s with cache := c₁,
                    pending := aset k f s.pending,
                    flights := (f, .running k opts true) :: s.flights,
                    nextFlight := f + 1 })

/-- The rest of `createInternal` once the factory for flight `f` resolved:
store (or delete, if the absolute TTL is `≤ 0`) and release the pending
marker of a registered flight.  The factory's result is a fresh client
token. -/
def completeOk (defSliding : Int) (now : Int) (f : Nat) (s : MState) : MState :=
  match alookup f s.flights with
  | some (.running k opts reg) =>
      let v := s.nextClient
      let r := createInternal defSliding k opts now s.cache v
      { s with cache := r.cache,
               pending := if reg then aremove k s.pending else s.pending,
               flights := aset f (.done k (.ok v)) s.flights,
               nextClient := v + 1 }
  | _ => s

/-- The factory promise for flight `f` rejects with error `e`: nothing is
stored, the pending marker of a registered flight is released, and every
waiter on the flight receives the rejection. -/
def completeErr (e : Nat) (f : Nat) (s : MState) : MState :=
  match alookup f s.flights with
  | some (.running k _ reg) =>
      { s with pending := if reg then aremove k s.pending else s.pending,
               flights := aset f (.done k (.err e)) s.flights }
  | _ => s

/-- The outcome a caller with arrival result `r` eventually receives, read
off a state in which the relevant flight has completed. -/
def received (r : ArrivalRes) (s : MState) : Option FOutcome :=
  match r with
  | .hit v => some (.ok v)
  | .joined f | .started f | .startedRefresh f =>
      match alookup f s.flights with
      | some (.done _ o) => some o
      | _ => none

/-- A batch of concurrent arrivals for the same key, in arrival order, with
no completion in between. -/
def processArrivals (ts : List Int) (k : String) (opts : CacheOptions)
    (s : MState) : List ArrivalRes × MState :=
  match ts with
  | [] => ([], s)
  | t :: rest =>
      let r := arrive t k opts s
      let rr := processArrivals rest k opts r.2
      (r.1 :: rr.1, rr.2)

/-- The flights currently running for key `k` (each is one in-flight
factory invocation for that key). -/
def runningFlightsFor (k : String) (s : MState) : List Nat :=
  s.flights.filterMap (fun p =>
    match p.2 with
    | .running k₂ _ _ => if k₂ = k then some p.1 else none
    | _ => none)

/-! ### Helper views of the raw-key builder (for key-distinctness analysis) -/

/-- The tail appended by `String.intercalate`: `joinTail s [x, y] = s ++ x
++ s ++ y`. -/
def joinTail (s : String) : List String → String
  | [] => ""
  | x :: xs => s ++ x ++ joinTail s xs

/-- The token-derived raw-key parts (`tenant:` / `user:`) of
`generateRawCacheKey`. -/
def tokenParts (ctx : AuthContext) : List String :=
  match tokenCtxOf ctx with
  | none => []
  | some t => ["tenant:" ++ t.tenantId, "user:" ++ t.userObjectId]

/-- The options-derived raw-key parts of `generateRawCacheKey`; these
depend only on the factory fingerprint, the digest and the options value,
never on the auth context. -/
def optionSuffix (digest : String → String)
    (fp : Option (JValue → Option String)) (options : Option JValue) :
    Option (List String) :=
  match options with
  | none => some []
  | some o =>
      match fp.bind (fun f => f o) with
      | some s =>
          if s = "" then (serializeOptions digest o).map (fun h => ["options:" ++ h])
          else some (["fingerprint:" ++ s])
      | none => (serializeOptions digest o).map (fun h => ["options:" ++ h])

/-- A string containing no colon character (Azure tenant ids and user
object ids are GUIDs, which satisfy this). -/
def noColon (s : String) : Prop := ¬ ':' ∈ s.data

instance (s : String) : Decidable (noColon s) := by
  unfold noColon; exact inferInstance

deriving instance DecidableEq for Except

/-! ## Theorems -/

/-- Unfolding of `getClientM` for a token-based context that passes
validation and the expiry check: everything funnels into `getOrCreate`
with `customTtl = max(expiresAt − now − bufferMs, 1)` as absolute TTL. -/
theorem getClientM_token_eq (digest : String → String)
    (fp : Option (JValue → Option String)) (cfg : PoolCfg)
    (ctx : AuthContext) (t : TokenCtx) (options : Option JValue) (now : Int)
    (c : Cache) (ctr : Nat) (raw : String)
    (ht : tokenCtxOf ctx = some t)
    (hten : ¬ t.tenantId = "") (huser : ¬ t.userObjectId = "")
    (hraw : generateRawCacheKey digest fp cfg.cacheKeyPrefix ctx options =
      some raw)
    (hfut : ¬ t.expiresAt ≤ now) :
    getClientM digest fp cfg ctx options now c ctr =
      .ok (cmGetOrCreate cfg.clientSlidingTtl (createStableCacheKey digest raw)
        { slidingTtl := none,
          absoluteTtl := some (max (t.expiresAt - now - cfg.bufferMs) 1) }
        now c ctr) := by
  cases ctx <;> simp_all [getClientM, tokenCtxOf]

/-- On a key with no physical entry, `getOrCreate` goes straight to
`createInternal`. -/
theorem cmGetOrCreate_miss (defSliding : Int) (k : String)
    (opts : CacheOptions) (now : Int) (c : Cache) (ctr : Nat)
    (hmiss : alookup k c = none) :
    cmGetOrCreate defSliding k opts now c ctr =
      createInternal defSliding k opts now c ctr := by
  simp [cmGetOrCreate, ttlGet, hmiss]

/-- `createInternal` with a positive absolute TTL stores the fresh value
with the sliding TTL clamped to the absolute TTL and floored at `1`. -/
theorem createInternal_pos_abs (defSliding : Int) (k : String) (a : Int)
    (now : Int) (c : Cache) (ctr : Nat) (ha : 0 < a) :
    createInternal defSliding k { slidingTtl := none, absoluteTtl := some a }
        now c ctr =
      { value := ctr
        cache := ttlSet now k ⟨ctr, some (now + a)⟩
          (max (if defSliding > a then a else defSliding) 1) c
        nextId := ctr + 1
        invoked := true } := by
  simp [createInternal, not_le.mpr ha]

/-- Unfolding of `getDelegatedCredentialM` on a token-based context. -/
theorem getDelegated_eq (ctx : AuthContext) (t : TokenCtx)
    (h : tokenCtxOf ctx = some t) (now : Int) (st : CredState) :
    getDelegatedCredentialM ctx now st =
      if t.expiresAt ≤ now then (.error .tokenExpired, st)
      else (.ok st.nextCred,
            { st with nextCred := st.nextCred + 1,
                      delLog := st.delLog ++ [(t, st.nextCred)] }) := by
  cases ctx <;> simp_all [tokenCtxOf, getDelegatedCredentialM]

/-- Unfolding of `getDelegatedCredentialM` on an application context. -/
theorem getDelegated_eq_app (ctx : AuthContext)
    (h : tokenCtxOf ctx = none) (now : Int) (st : CredState) :
    getDelegatedCredentialM ctx now st = (.error .authModeMismatch, st) := by
  cases ctx <;> simp_all [tokenCtxOf, getDelegatedCredentialM]

theorem okResults_cons_err (e : CredError) (rs : List (Except CredError Nat)) :
    okResults (.error e :: rs) = okResults rs := rfl

theorem okResults_cons_ok (v : Nat) (rs : List (Except CredError Nat)) :
    okResults (.ok v :: rs) = v :: okResults rs := rfl

/-! ### C5 — delegated path: TokenExpired exactly on stale assertions -/

/-- C5: on the delegated path, a token-based auth context fails with
`TokenExpired` iff the assertion's `expiresAt` is `≤ now`; on that failure
the state is untouched (no delegated-strategy invocation), and with a
strictly future expiry the strategy is invoked exactly once, its fresh
credential being returned. -/
theorem claim_C5_delegated_token_expiry (ctx : AuthContext) (t : TokenCtx)
    (h : tokenCtxOf ctx = some t) (now : Int) (st : CredState) :
    ((getDelegatedCredentialM ctx now st).1 = .error .tokenExpired ↔
      t.expiresAt ≤ now) ∧
    (t.expiresAt ≤ now → (getDelegatedCredentialM ctx now st).2 = st) ∧
    (now < t.expiresAt →
      (getDelegatedCredentialM ctx now st).1 = .ok st.nextCred ∧
      (getDelegatedCredentialM ctx now st).2.delLog =
        st.delLog ++ [(t, st.nextCred)]) := by
  rw [getDelegated_eq ctx t h now st]
  by_cases hle : t.expiresAt ≤ now
  · simp [hle]
  · simp [hle]

/-- Witness for C5 at a concrete token context and clock. -/
theorem claim_C5_witness :
    tokenCtxOf (.delegated ⟨"t1", "u1", "tok", 100⟩) =
        some ⟨"t1", "u1", "tok", 100⟩ ∧
    (getDelegatedCredentialM (.delegated ⟨"t1", "u1", "tok", 100⟩) 50
        ⟨[], 0, []⟩).1 = .ok 0 := by
  refine ⟨rfl, ?_⟩
  exact ((claim_C5_delegated_token_expiry (.delegated ⟨"t1", "u1", "tok", 100⟩)
    ⟨"t1", "u1", "tok", 100⟩ rfl 50 ⟨[], 0, []⟩).2.2 (by norm_num)).1

/-! ### C6 — application contexts never yield delegated credentials -/

/-- C6: requesting a `Delegated` credential with an `Application` auth
context returns the `AuthModeMismatch` error with the manager state
untouched (no strategy of either kind runs), and any successful delegated
request must have come from a `delegated` or `composite` context. -/
theorem claim_C6_auth_mode_mismatch (digest : String → String) (cfg : CredCfg)
    (now : Int) (st : CredState) :
    getCredentialM digest cfg .application .delegated now st =
      (.error .authModeMismatch, st) ∧
    (∀ ctx v, (getCredentialM digest cfg ctx .delegated now st).1 = .ok v →
      ∃ t, ctx = .delegated t ∨ ctx = .composite t) := by
  refine ⟨rfl, ?_⟩
  intro ctx v h
  cases ctx with
  | application => simp [getCredentialM, getDelegatedCredentialM, tokenCtxOf] at h
  | delegated t => exact ⟨t, Or.inl rfl⟩
  | composite t => exact ⟨t, Or.inr rfl⟩

/-- Witness for C6 at concrete inputs: the mismatch error fires, and the
success clause applies to a concrete composite-context call. -/
theorem claim_C6_witness :
    (getCredentialM id ⟨"client", 10, 20⟩ .application .delegated 0
        ⟨[], 0, []⟩) = (.error .authModeMismatch, ⟨[], 0, []⟩) ∧
    ∃ t, (AuthContext.composite ⟨"t1", "u1", "tok", 5⟩) = .delegated t ∨
         (AuthContext.composite ⟨"t1", "u1", "tok", 5⟩) = .composite t := by
  refine ⟨(claim_C6_auth_mode_mismatch id ⟨"client", 10, 20⟩ 0 ⟨[], 0, []⟩).1, ?_⟩
  exact (claim_C6_auth_mode_mismatch id ⟨"client", 10, 20⟩ 0 ⟨[], 0, []⟩).2
    (.composite ⟨"t1", "u1", "tok", 5⟩) 0 (by norm_num [getCredentialM,
      getDelegatedCredentialM, tokenCtxOf])

/-! ### C10 — the application credential is auth-context independent -/

/-- C10: `getCredential(·, Application)` does not read its auth-context
argument at all — any two contexts, of any mode and identity, produce the
same result and the same state — and the cache key it uses is built from
the configured prefix and the literal `application` credential type only. -/
theorem claim_C10_application_credential_context_free
    (digest : String → String) (cfg : CredCfg) (ctx₁ ctx₂ : AuthContext)
    (now : Int) (st : CredState) :
    getCredentialM digest cfg ctx₁ .application now st =
      getCredentialM digest cfg ctx₂ .application now st ∧
    createApplicationRawCacheKey cfg =
      cfg.cacheKeyPrefix ++ "::" ++ "application" := by
  exact ⟨rfl, rfl⟩

/-! ### C3 — delegated credentials are never cached -/

/-- C3 (supporting lemma): over any sequence of
`getCredential(·, Delegated)` calls, the successful results are exactly the
fresh strategy tokens `nextCred, nextCred+1, …` in order, the application
cache is never touched, and the delegated-strategy log grows by exactly the
returned credentials. -/
theorem processDelegated_spec (calls : List (AuthContext × Int)) :
    ∀ st : CredState,
      okResults (processDelegated calls st).1 =
        List.range' st.nextCred (okResults (processDelegated calls st).1).length ∧
      (processDelegated calls st).2.appCache = st.appCache ∧
      (processDelegated calls st).2.delLog.map Prod.snd =
        st.delLog.map Prod.snd ++ okResults (processDelegated calls st).1 ∧
      (processDelegated calls st).2.nextCred =
        st.nextCred + (okResults (processDelegated calls st).1).length := by
  induction calls with
  | nil => intro st; simp [processDelegated, okResults]
  | cons c rest ih =>
      intro st
      obtain ⟨ctx, now⟩ := c
      rcases hctx : tokenCtxOf ctx with _ | t
      · have hfirst := getDelegated_eq_app ctx hctx now st
        have h := ih st
        simp only [processDelegated, hfirst, okResults_cons_err]
        exact h
      · have hfirst := getDelegated_eq ctx t hctx now st
        by_cases hle : t.expiresAt ≤ now
        · rw [if_pos hle] at hfirst
          have h := ih st
          simp only [processDelegated, hfirst, okResults_cons_err]
          exact h
        · rw [if_neg hle] at hfirst
          set st₂ : CredState :=
            { st with nextCred := st.nextCred + 1,
                      delLog := st.delLog ++ [(t, st.nextCred)] } with hst₂
          obtain ⟨h₁, h₂, h₃, h₄⟩ := ih st₂
          simp only [processDelegated, hfirst, okResults_cons_ok]
          refine ⟨?_, ?_, ?_, ?_⟩
          · have : List.range' st.nextCred
                ((st.nextCred :: okResults (processDelegated rest st₂).1).length) =
                st.nextCred :: List.range' (st.nextCred + 1)
                  ((okResults (processDelegated rest st₂).1).length) := rfl
            rw [this, h₁]
            simp [hst₂]
          · rw [h₂]
          · rw [h₃]
            simp [hst₂]
          · rw [h₄]
            simp [hst₂]
            omega

/-- C3: delegated credentials are never cached — over any sequence of
`getCredential(·, Delegated)` calls, every successful call logs exactly one
fresh delegated-strategy invocation and returns that invocation's
credential; no two calls ever return the same credential, the application
cache is untouched, and (when every cached application credential predates
the counter, which construction maintains) no returned credential lives in
any cache. -/
theorem claim_C3_delegated_never_cached (calls : List (AuthContext × Int))
    (st : CredState)
    (hinv : ∀ v ∈ cacheValues st.appCache, v < st.nextCred) :
    (okResults (processDelegated calls st).1).Nodup ∧
    (processDelegated calls st).2.appCache = st.appCache ∧
    (processDelegated calls st).2.delLog.map Prod.snd =
      st.delLog.map Prod.snd ++ okResults (processDelegated calls st).1 ∧
    (∀ v ∈ okResults (processDelegated calls st).1,
      ¬ v ∈ cacheValues st.appCache) := by
  obtain ⟨h₁, h₂, h₃, _⟩ := processDelegated_spec calls st
  refine ⟨?_, h₂, h₃, ?_⟩
  · rw [h₁]; exact List.nodup_range' _ _
  · intro v hv hmem
    have hge : st.nextCred ≤ v := by
      rw [h₁] at hv
      have := List.mem_range'_1.mp hv
      omega
    exact absurd (hinv v hmem) (not_lt.mpr hge)

/-- Witness for C3: a concrete two-call sequence against a manager whose
application cache holds credential `0`. -/
theorem claim_C3_witness :
    (∀ v ∈ cacheValues
        [("k", ⟨⟨0, none⟩, 5, 10⟩)], v < 1) ∧
    okResults (processDelegated
      [(.delegated ⟨"t1", "u1", "tok", 100⟩, 0),
       (.delegated ⟨"t1", "u1", "tok", 100⟩, 0)]
      ⟨[("k", ⟨⟨0, none⟩, 5, 10⟩)], 1, []⟩).1 = [1, 2] := by
  have h := claim_C3_delegated_never_cached
    [(.delegated ⟨"t1", "u1", "tok", 100⟩, 0),
     (.delegated ⟨"t1", "u1", "tok", 100⟩, 0)]
    ⟨[("k", ⟨⟨0, none⟩, 5, 10⟩)], 1, []⟩ (by decide)
  exact ⟨by decide, by decide⟩

/-! ### Association-list lemmas -/

theorem aremove_eq_of_alookup_none {κ α : Type} [DecidableEq κ] (k : κ)
    (c : List (κ × α)) (h : alookup k c = none) : aremove k c = c := by
  induction c with
  | nil => rfl
  | cons kv rest ih =>
      obtain ⟨k₂, v⟩ := kv
      by_cases hk : k₂ = k
      · simp [alookup, hk] at h
      · simp [alookup, hk] at h
        simp [aremove, hk, ih h]

theorem alookup_aremove_self {κ α : Type} [DecidableEq κ] (k : κ)
    (c : List (κ × α)) : alookup k (aremove k c) = none := by
  induction c with
  | nil => rfl
  | cons kv rest ih =>
      obtain ⟨k₂, v⟩ := kv
      by_cases hk : k₂ = k
      · simp [aremove, hk, ih]
      · simp [aremove, alookup, hk, ih]

theorem aremove_aremove {κ α : Type} [DecidableEq κ] (k : κ)
    (c : List (κ × α)) : aremove k (aremove k c) = aremove k c :=
  aremove_eq_of_alookup_none k (aremove k c) (alookup_aremove_self k c)

theorem alookup_aset_self {κ α : Type} [DecidableEq κ] (k : κ) (v : α)
    (c : List (κ × α)) : alookup k (aset k v c) = some v := by
  simp [aset, alookup]

theorem alookup_eq_none_of_not_mem {κ α : Type} [DecidableEq κ] (k : κ)
    (c : List (κ × α)) (h : ¬ k ∈ c.map Prod.fst) : alookup k c = none := by
  induction c with
  | nil => rfl
  | cons kv rest ih =>
      obtain ⟨k₂, v⟩ := kv
      simp only [List.map_cons, List.mem_cons] at h
      push_neg at h
      simp [alookup, Ne.symm h.1, ih h.2]

theorem length_aremove_of_alookup_some {κ α : Type} [DecidableEq κ] (k : κ)
    (c : List (κ × α)) (it : α)
    (hnd : (c.map Prod.fst).Nodup) (h : alookup k c = some it) :
    (aremove k c).length + 1 = c.length := by
  induction c with
  | nil => simp [alookup] at h
  | cons kv rest ih =>
      obtain ⟨k₂, v⟩ := kv
      simp only [List.map_cons, List.nodup_cons] at hnd
      by_cases hk : k₂ = k
      · subst hk
        have hnone : alookup k₂ rest = none :=
          alookup_eq_none_of_not_mem k₂ rest hnd.1
        simp [aremove, aremove_eq_of_alookup_none _ _ hnone]
      · simp only [alookup, hk, if_false] at h
        simp [aremove, hk, ih hnd.2 h]

/-! ### C4 — `customTtl ≤ 0`: uncacheable, but the claim's size clause fails -/

/-- C4 counterexample: a `getOrCreate` call with per-call custom TTL `0` on
a key holding a TTL-live but absolutely-expired entry returns a fresh value
yet *deletes* that entry, so the cache shrinks from size `1` to size `0` —
the claim's "size is the same after the call" is false.  (Before the call
the entry's sliding deadline `300` is in the future, so the background
purge would not have removed it at time `200`.) -/
theorem claim_C4_counterexample :
    cmGetOrCreate 1000 "k" ⟨none, some 0⟩ 200
        [("k", ⟨⟨7, some 100⟩, 50, 300⟩)] 5 =
      { value := 5, cache := [], nextId := 6, invoked := true } ∧
    cacheSize [("k", (⟨⟨7, some 100⟩, 50, 300⟩ : TtlItem))] = 1 ∧
    cacheSize ([] : Cache) = 0 := by
  exact ⟨by decide, rfl, rfl⟩

/-- C4 (amended): a `getOrCreate` call whose per-call custom TTL is `≤ 0`
succeeds with a freshly constructed value whenever it reaches the factory,
and stores nothing — afterwards the key maps to nothing.  When the key held
no entry the cache is returned entirely unchanged (in particular its size);
when the key held a TTL-live but absolutely-expired entry, the call deletes
exactly that entry and the size decreases by one. -/
theorem claim_C4_uncacheable_not_stored (defSliding sl a now : Int)
    (k : String) (c : Cache) (ctr : Nat) (ha : a ≤ 0) :
    (alookup k c = none →
      cmGetOrCreate defSliding k ⟨sl, some a⟩ now c ctr =
        { value := ctr, cache := c, nextId := ctr + 1, invoked := true }) ∧
    (∀ it b, (c.map Prod.fst).Nodup → alookup k c = some it →
      now < it.ttlDeadline → it.entry.absoluteExpiresAt = some b → b ≤ now →
      (cmGetOrCreate defSliding k ⟨sl, some a⟩ now c ctr).value = ctr ∧
      (cmGetOrCreate defSliding k ⟨sl, some a⟩ now c ctr).invoked = true ∧
      alookup k (cmGetOrCreate defSliding k ⟨sl, some a⟩ now c ctr).cache =
        none ∧
      cacheSize (cmGetOrCreate defSliding k ⟨sl, some a⟩ now c ctr).cache + 1 =
        cacheSize c) := by
  constructor
  · intro hmiss
    simp [cmGetOrCreate, ttlGet, hmiss, createInternal, ha,
      aremove_eq_of_alookup_none k c hmiss]
  · intro it b hnd hsome hlive habs hble
    have hfresh : ¬ it.ttlDeadline ≤ now := not_le.mpr hlive
    simp only [cmGetOrCreate, ttlGet, hsome, hfresh, if_false, habs,
      if_pos hble, createInternal, if_pos ha]
    have hrm : aremove k (aset k { it with ttlDeadline := now + it.itemTtl } c) =
        aremove k c := by
      simp [aset, aremove, aremove_aremove]
    refine ⟨trivial, trivial, ?_, ?_⟩
    · simpa [hrm] using alookup_aremove_self k c
    · simpa [cacheSize, hrm] using
        length_aremove_of_alookup_some k c it hnd hsome

/-- Witness for C4 (amended) at concrete inputs: a clean miss leaves the
empty cache untouched, and the concrete expired-entry input of the
counterexample state loses exactly one entry. -/
theorem claim_C4_witness :
    cmGetOrCreate 1000 "k" ⟨none, some 0⟩ 200 ([] : Cache) 5 =
      { value := 5, cache := [], nextId := 6, invoked := true } ∧
    cacheSize (cmGetOrCreate 1000 "k2" ⟨none, some (-3)⟩ 200
        [("k2", ⟨⟨7, some 100⟩, 50, 300⟩)] 5).cache + 1 =
      cacheSize [("k2", (⟨⟨7, some 100⟩, 50, 300⟩ : TtlItem))] := by
  constructor
  · exact (claim_C4_uncacheable_not_stored 1000 0 0 200 "k" [] 5
      (by norm_num)).1 rfl
  · exact ((claim_C4_uncacheable_not_stored 1000 0 (-3) 200 "k2"
      [("k2", ⟨⟨7, some 100⟩, 50, 300⟩)] 5 (by norm_num)).2
      ⟨⟨7, some 100⟩, 50, 300⟩ 100 (by decide) (by decide) (by decide)
      (by decide) (by decide)).2.2.2

/-! ### C2 — token-bound TTL ceiling -/

/-- C2 counterexample: with the default configuration
(`slidingTtl = 45 min`, `bufferMs = 60000`) and an assertion expiring at
`E = now + 1`, `getClient` stores the client with effective TTL `1`, which
is *not* strictly less than `E − now = 1`, and the entry is still present
(and would not be purged by the timer) well after `E − bufferMs = now −
58999`: the stored entry's sliding deadline is `now + 1 > E − bufferMs`, so
it is not removed from the client cache by `E − bufferMs`. -/
theorem claim_C2_counterexample :
    getClientM id none ⟨"client", 2700000, 60000⟩
        (.delegated ⟨"T", "U", "tok", 1001⟩) none 1000 [] 0 =
      .ok { value := 0
            cache := [("client::delegated::tenant:T::user:U",
              ⟨⟨0, some 1001⟩, 1, 1001⟩)]
            nextId := 1
            invoked := true } ∧
    ¬ ((1 : Int) < 1001 - 1000) ∧
    alookup "client::delegated::tenant:T::user:U"
        (purgeAt (1001 - 60000)
          [("client::delegated::tenant:T::user:U",
            (⟨⟨0, some 1001⟩, 1, 1001⟩ : TtlItem))]) =
      some ⟨⟨0, some 1001⟩, 1, 1001⟩ := by
  refine ⟨by decide, by norm_num, by decide⟩

/-- C2 (amended): for a token-bound `getClient` that stores a fresh client
at time `now` against an assertion expiring at `E` (with `0 ≤ bufferMs`):
the effective TTL is at most `customTtl = max(E − now − bufferMs, 1)` and —
whenever `1 ≤ bufferMs` and `2 ≤ E − now` — strictly less than `E − now`;
the stored entry carries the absolute expiry
`now + customTtl = max(E − bufferMs, now + 1)`; every later call on the
same key at or past that absolute expiry (and before `E`, where the call
would instead fail) re-invokes the factory and returns a fresh client; and
every call strictly before both the absolute expiry and the entry's current
sliding deadline returns the cached instance without invoking the factory.
(The physical entry may outlive `E − bufferMs` up to its sliding deadline,
which cache hits renew; it is never *served* at or past its absolute
expiry.) -/
theorem claim_C2_ttl_ceiling (digest : String → String)
    (fp : Option (JValue → Option String)) (cfg : PoolCfg)
    (ctx : AuthContext) (t : TokenCtx) (options : Option JValue) (now : Int)
    (c : Cache) (ctr : Nat) (raw : String)
    (ht : tokenCtxOf ctx = some t)
    (hten : ¬ t.tenantId = "") (huser : ¬ t.userObjectId = "")
    (hraw : generateRawCacheKey digest fp cfg.cacheKeyPrefix ctx options =
      some raw)
    (hfut : now < t.expiresAt) (hb0 : 0 ≤ cfg.bufferMs)
    (hmiss : alookup (createStableCacheKey digest raw) c = none) :
    getClientM digest fp cfg ctx options now c ctr =
      .ok { value := ctr
            cache := ttlSet now (createStableCacheKey digest raw)
              ⟨ctr, some (now + max (t.expiresAt - now - cfg.bufferMs) 1)⟩
              (max (if cfg.clientSlidingTtl >
                      max (t.expiresAt - now - cfg.bufferMs) 1
                    then max (t.expiresAt - now - cfg.bufferMs) 1
                    else cfg.clientSlidingTtl) 1) c
            nextId := ctr + 1
            invoked := true } ∧
    (max (if cfg.clientSlidingTtl > max (t.expiresAt - now - cfg.bufferMs) 1
          then max (t.expiresAt - now - cfg.bufferMs) 1
          else cfg.clientSlidingTtl) 1 ≤
      max (t.expiresAt - now - cfg.bufferMs) 1) ∧
    (1 ≤ cfg.bufferMs → 2 ≤ t.expiresAt - now →
      max (if cfg.clientSlidingTtl > max (t.expiresAt - now - cfg.bufferMs) 1
           then max (t.expiresAt - now - cfg.bufferMs) 1
           else cfg.clientSlidingTtl) 1 < t.expiresAt - now) ∧
    (now + max (t.expiresAt - now - cfg.bufferMs) 1 =
      max (t.expiresAt - cfg.bufferMs) (now + 1)) ∧
    (∀ t₂ ctr₂,
      now + max (t.expiresAt - now - cfg.bufferMs) 1 ≤ t₂ →
      t₂ < t.expiresAt →
      ∃ goc₂, getClientM digest fp cfg ctx options t₂
          (ttlSet now (createStableCacheKey digest raw)
            ⟨ctr, some (now + max (t.expiresAt - now - cfg.bufferMs) 1)⟩
            (max (if cfg.clientSlidingTtl >
                    max (t.expiresAt - now - cfg.bufferMs) 1
                  then max (t.expiresAt - now - cfg.bufferMs) 1
                  else cfg.clientSlidingTtl) 1) c) ctr₂ =
          .ok goc₂ ∧ goc₂.invoked = true ∧ goc₂.value = ctr₂) ∧
    (∀ t₂ ctr₂,
      t₂ < now + max (t.expiresAt - now - cfg.bufferMs) 1 →
      t₂ < now + max (if cfg.clientSlidingTtl >
                        max (t.expiresAt - now - cfg.bufferMs) 1
                      then max (t.expiresAt - now - cfg.bufferMs) 1
                      else cfg.clientSlidingTtl) 1 →
      ∃ goc₂, getClientM digest fp cfg ctx options t₂
          (ttlSet now (createStableCacheKey digest raw)
            ⟨ctr, some (now + max (t.expiresAt - now - cfg.bufferMs) 1)⟩
            (max (if cfg.clientSlidingTtl >
                    max (t.expiresAt - now - cfg.bufferMs) 1
                  then max (t.expiresAt - now - cfg.bufferMs) 1
                  else cfg.clientSlidingTtl) 1) c) ctr₂ =
          .ok goc₂ ∧ goc₂.invoked = false ∧ goc₂.value = ctr) := by
  set customTtl : Int := max (t.expiresAt - now - cfg.bufferMs) 1 with hcut
  set eff : Int := max (if cfg.clientSlidingTtl > customTtl
    then customTtl else cfg.clientSlidingTtl) 1 with heff
  set key : String := createStableCacheKey digest raw with hkey
  have hc1 : (1 : Int) ≤ customTtl := le_max_right _ _
  have habs : now + customTtl = max (t.expiresAt - cfg.bufferMs) (now + 1) := by
    rw [hcut]; omega
  have heffle : eff ≤ customTtl := by
    rw [heff]; rcases le_or_lt cfg.clientSlidingTtl customTtl with h | h
    · simp [not_lt.mpr h]; omega
    · simp [h]; exact hc1
  have hfirst : getClientM digest fp cfg ctx options now c ctr =
      .ok { value := ctr
            cache := ttlSet now key ⟨ctr, some (now + customTtl)⟩ eff c
            nextId := ctr + 1
            invoked := true } := by
    rw [getClientM_token_eq digest fp cfg ctx t options now c ctr raw ht hten
      huser hraw (not_le.mpr hfut)]
    rw [cmGetOrCreate_miss _ _ _ _ _ _ hmiss,
      createInternal_pos_abs _ _ _ _ _ _ (by omega)]
  have hlater : ∀ (t₂ : Int) (ctr₂ : Nat),
      now + customTtl ≤ t₂ → t₂ < t.expiresAt →
      ∃ goc₂, getClientM digest fp cfg ctx options t₂
          (ttlSet now key ⟨ctr, some (now + customTtl)⟩ eff c) ctr₂ =
          .ok goc₂ ∧ goc₂.invoked = true ∧ goc₂.value = ctr₂ := by
    intro t₂ ctr₂ hge hlt
    rw [getClientM_token_eq digest fp cfg ctx t options t₂ _ ctr₂ raw ht hten
      huser hraw (not_le.mpr hlt)]
    rcases le_or_lt (now + eff) t₂ with hstale | hlive
    · -- the stored entry is sliding-stale at `t₂`: physical miss, factory
      refine ⟨_, rfl, ?_, ?_⟩ <;>
        simp [cmGetOrCreate, ttlGet, ttlSet, alookup_aset_self, hstale,
          createInternal]
    · -- sliding-live but absolutely expired: the refresh path, factory
      refine ⟨_, rfl, ?_, ?_⟩ <;>
        simp [cmGetOrCreate, ttlGet, ttlSet, alookup_aset_self,
          not_le.mpr hlive, hge, createInternal]
  have huntil : ∀ (t₂ : Int) (ctr₂ : Nat),
      t₂ < now + customTtl → t₂ < now + eff →
      ∃ goc₂, getClientM digest fp cfg ctx options t₂
          (ttlSet now key ⟨ctr, some (now + customTtl)⟩ eff c) ctr₂ =
          .ok goc₂ ∧ goc₂.invoked = false ∧ goc₂.value = ctr := by
    intro t₂ ctr₂ hlt habs₂
    have ht₂E : ¬ t.expiresAt ≤ t₂ := by rw [hcut] at hlt; omega
    rw [getClientM_token_eq digest fp cfg ctx t options t₂ _ ctr₂ raw ht hten
      huser hraw ht₂E]
    refine ⟨_, rfl, ?_, ?_⟩ <;>
      simp [cmGetOrCreate, ttlGet, ttlSet, alookup_aset_self,
        not_le.mpr habs₂, not_le.mpr hlt]
  refine ⟨hfirst, heffle, ?_, habs, hlater, huntil⟩
  intro hb1 hE2
  rw [heff, hcut]
  rcases le_or_lt cfg.clientSlidingTtl (max (t.expiresAt - now - cfg.bufferMs) 1)
    with h | h
  · simp [not_lt.mpr h]; omega
  · simp [h]; omega

/-- Witness for C2 (amended) at concrete inputs: assertion valid for ten
seconds, `bufferMs = 5000`, default sliding TTL 45 minutes; the client is
stored with effective TTL `5000 < 10000` and absolute expiry `5000`. -/
theorem claim_C2_witness :
    getClientM id none ⟨"client", 2700000, 5000⟩
        (.delegated ⟨"T", "U", "tok", 10000⟩) none 0 [] 0 =
      .ok { value := 0
            cache := ttlSet 0 "client::delegated::tenant:T::user:U"
              ⟨0, some 5000⟩ 5000 []
            nextId := 1
            invoked := true } := by
  have h := (claim_C2_ttl_ceiling id none ⟨"client", 2700000, 5000⟩
    (.delegated ⟨"T", "U", "tok", 10000⟩) ⟨"T", "U", "tok", 10000⟩ none 0 [] 0
    "client::delegated::tenant:T::user:U" rfl (by decide) (by decide)
    (by decide) (by decide) (by decide) rfl).1
  simpa using h

/-! ### C8 — per-user key isolation -/

theorem intercalate_go_eq (s : String) (l : List String) :
    ∀ acc, String.intercalate.go acc s l = acc ++ joinTail s l := by
  induction l with
  | nil => intro acc; simp [String.intercalate.go, joinTail]
  | cons x xs ih =>
      intro acc
      have hstep : String.intercalate.go acc s (x :: xs) =
          String.intercalate.go (acc ++ s ++ x) s xs := rfl
      rw [hstep, ih]
      simp [joinTail, String.append_assoc]

theorem intercalate_eq_joinTail (s a : String) (l : List String) :
    String.intercalate s (a :: l) = a ++ joinTail s l := by
  show String.intercalate.go a s l = a ++ joinTail s l
  exact intercalate_go_eq s l a

/-- `generateRawCacheKey` factors into the base parts (prefix, mode,
tenant/user) and a context-independent option suffix. -/
theorem generateRawCacheKey_factor (digest : String → String)
    (fp : Option (JValue → Option String)) (keyPrefix : String)
    (ctx : AuthContext) (options : Option JValue) :
    generateRawCacheKey digest fp keyPrefix ctx options =
      (optionSuffix digest fp options).map (fun tail =>
        String.intercalate "::" ([keyPrefix, modeLit ctx] ++ tokenParts ctx ++ tail)) := by
  cases options with
  | none => simp [generateRawCacheKey, optionSuffix, tokenParts]
  | some o =>
      cases hfo : fp.bind (fun f => f o) with
      | none =>
          simp [generateRawCacheKey, optionSuffix, tokenParts, hfo, Option.map_map]
          rfl
      | some s =>
          by_cases hs : s = ""
          · simp [generateRawCacheKey, optionSuffix, tokenParts, hfo, hs,
              Option.map_map]
            rfl
          · simp [generateRawCacheKey, optionSuffix, tokenParts, hfo, hs]

/-- Splitting at the first colon is unambiguous when the heads are
colon-free. -/
theorem split_at_colon (A : List Char) :
    ∀ (B r r' : List Char), ¬ ':' ∈ A → ¬ ':' ∈ B →
      A ++ ':' :: r = B ++ ':' :: r' → A = B ∧ r = r' := by
  induction A with
  | nil =>
      intro B r r' _ hB h
      cases B with
      | nil => simpa using h
      | cons b bs =>
          simp only [List.nil_append, List.cons_append, List.cons.injEq] at h
          exact absurd (h.1 ▸ List.mem_cons_self b bs) (h.1 ▸ hB)
  | cons a as ih =>
      intro B r r' hA hB h
      cases B with
      | nil =>
          simp only [List.cons_append, List.nil_append, List.cons.injEq] at h
          exact absurd (h.1 ▸ List.mem_cons_self a as) (h.1 ▸ hA)
      | cons b bs =>
          simp only [List.cons_append, List.cons.injEq] at h
          obtain ⟨hab, hrest⟩ := h
          have := ih bs r r' (fun hm => hA (List.mem_cons_of_mem _ hm))
            (fun hm => hB (hab ▸ List.mem_cons_of_mem _ hm)) hrest
          exact ⟨by rw [hab, this.1], this.2⟩

theorem string_ext_of_data {a b : String} (h : a.data = b.data) : a = b := by
  cases a; cases b; exact congrArg String.mk h

/-- C8 (amended, supporting lemma): with a shared prefix, mode literal and
option suffix, raw cache keys determine the `(tenantId, userObjectId)`
pair, provided the tenant ids contain no colon. -/
theorem rawKey_inj (p m : String) (tail : List String)
    (A₁ B₁ A₂ B₂ : String)
    (hA₁ : noColon A₁) (hA₂ : noColon A₂)
    (h : String.intercalate "::"
        ([p, m] ++ ["tenant:" ++ A₁, "user:" ++ B₁] ++ tail) =
      String.intercalate "::"
        ([p, m] ++ ["tenant:" ++ A₂, "user:" ++ B₂] ++ tail)) :
    A₁ = A₂ ∧ B₁ = B₂ := by
  simp only [List.cons_append, List.nil_append] at h
  rw [intercalate_eq_joinTail, intercalate_eq_joinTail] at h
  simp only [joinTail] at h
  have hdata := congrArg String.data h
  simp only [String.data_append, List.append_assoc] at hdata
  have h₁ := List.append_cancel_left hdata
  have h₂ := List.append_cancel_left (List.append_cancel_left h₁)
  have h₃ := List.append_cancel_left (List.append_cancel_left h₂)
  -- `h₃ : A₁.data ++ (':' :: ':' :: rest₁) = A₂.data ++ (':' :: ':' :: rest₂)`
  have hsplit₁ := split_at_colon A₁.data A₂.data _ _ hA₁ hA₂ (by
    simpa using h₃)
  have hA : A₁ = A₂ := string_ext_of_data hsplit₁.1
  have h₄ := hsplit₁.2
  simp only [List.cons.injEq, true_and] at h₄
  have h₆ : B₁.data = B₂.data := List.append_cancel_right h₄
  exact ⟨hA, string_ext_of_data h₆⟩

/-- C8 counterexample: two distinct pairs of non-empty identifiers —
`("a::user:b", "c")` and `("a", "b::user:c")` — yield the *same* raw cache
key (and hence the same stored key under any digest) for delegated
requests with the same prefix, mode and options, so their client-cache
entries are not disjoint. -/
theorem claim_C8_counterexample :
    generateRawCacheKey id none "client"
        (.delegated ⟨"a::user:b", "c", "tok", 100⟩) none =
      generateRawCacheKey id none "client"
        (.delegated ⟨"a", "b::user:c", "tok", 100⟩) none ∧
    (("a::user:b", "c") : String × String) ≠ ("a", "b::user:c") ∧
    "a::user:b" ≠ "" ∧ "c" ≠ "" ∧ "a" ≠ "" ∧ "b::user:c" ≠ "" := by
  refine ⟨by decide, by decide, by decide, by decide, by decide, by decide⟩

/-- C8 (amended): for token-based requests of the same mode with the same
prefix, factory and options, the raw cache keys of two requests coincide
only if their `(tenantId, userObjectId)` pairs coincide — provided the
tenant ids contain no `:` character (true of GUID identifiers; the
counterexample shows the restriction is necessary because the `::`-joined
raw key cannot delimit identifiers that embed `::user:`).  Distinct pairs
therefore occupy distinct cache entries, the stored key being a fixed
digest of the raw key. -/
theorem claim_C8_user_isolation (digest : String → String)
    (fp : Option (JValue → Option String)) (keyPrefix : String)
    (mk : TokenCtx → AuthContext)
    (hmk : mk = AuthContext.delegated ∨ mk = AuthContext.composite)
    (t₁ t₂ : TokenCtx) (options : Option JValue) (r₁ r₂ : String)
    (hA₁ : noColon t₁.tenantId) (hA₂ : noColon t₂.tenantId)
    (hne : (t₁.tenantId, t₁.userObjectId) ≠ (t₂.tenantId, t₂.userObjectId))
    (h₁ : generateRawCacheKey digest fp keyPrefix (mk t₁) options = some r₁)
    (h₂ : generateRawCacheKey digest fp keyPrefix (mk t₂) options = some r₂) :
    r₁ ≠ r₂ := by
  intro hr
  rw [generateRawCacheKey_factor] at h₁ h₂
  rcases hsuf : optionSuffix digest fp options with _ | tail
  · rw [hsuf] at h₁; simp at h₁
  · rw [hsuf] at h₁ h₂
    simp only [Option.map, Option.some.injEq] at h₁ h₂
    have hmode : modeLit (mk t₁) = modeLit (mk t₂) := by
      rcases hmk with h | h <;> subst h <;> rfl
    have htp₁ : tokenParts (mk t₁) =
        ["tenant:" ++ t₁.tenantId, "user:" ++ t₁.userObjectId] := by
      rcases hmk with h | h <;> subst h <;> rfl
    have htp₂ : tokenParts (mk t₂) =
        ["tenant:" ++ t₂.tenantId, "user:" ++ t₂.userObjectId] := by
      rcases hmk with h | h <;> subst h <;> rfl
    rw [htp₁] at h₁
    rw [htp₂, ← hmode] at h₂
    have := rawKey_inj keyPrefix (modeLit (mk t₁)) tail
      t₁.tenantId t₁.userObjectId t₂.tenantId t₂.userObjectId hA₁ hA₂
      (by rw [h₁, h₂]; exact hr)
    exact hne (by rw [this.1, this.2])

/-- Witness for C8 (amended) at concrete GUID-like identifiers. -/
theorem claim_C8_witness :
    generateRawCacheKey id none "client"
        (.delegated ⟨"tA", "u1", "tok", 100⟩) none =
      some "client::delegated::tenant:tA::user:u1" ∧
    generateRawCacheKey id none "client"
        (.delegated ⟨"tA", "u2", "tok", 100⟩) none =
      some "client::delegated::tenant:tA::user:u2" ∧
    "client::delegated::tenant:tA::user:u1" ≠
      "client::delegated::tenant:tA::user:u2" := by
  refine ⟨by decide, by decide, ?_⟩
  exact claim_C8_user_isolation id none "client" AuthContext.delegated
    (Or.inl rfl) ⟨"tA", "u1", "tok", 100⟩ ⟨"tA", "u2", "tok", 100⟩ none
    _ _ (by decide) (by decide) (by decide) (by decide) (by decide)

/-! ### C1 — single flight per key -/

/-- C1: evaluation of `getOrCreate` at the failing input.  On a key holding
a sliding-live entry whose absolute expiry has passed (stored entry
`absoluteExpiresAt = 100`, sliding deadline `300`, clock `200`), two
concurrent callers both take the refresh path: both arrivals start
factory invocations, two flights for the key are in flight simultaneously,
and after both complete the two callers hold *different* client instances
(`10` and `11`) — the factory ran twice, not once. -/
theorem claim_C1_refresh_race :
    (arrive 200 "k" ⟨none, some 1000⟩
      ⟨[("k", ⟨⟨7, some 100⟩, 50, 300⟩)], [], [], 0, 10⟩).1 =
        .startedRefresh 0 ∧
    (arrive 200 "k" ⟨none, some 1000⟩
      (arrive 200 "k" ⟨none, some 1000⟩
        ⟨[("k", ⟨⟨7, some 100⟩, 50, 300⟩)], [], [], 0, 10⟩).2).1 =
        .startedRefresh 1 ∧
    runningFlightsFor "k"
      (arrive 200 "k" ⟨none, some 1000⟩
        (arrive 200 "k" ⟨none, some 1000⟩
          ⟨[("k", ⟨⟨7, some 100⟩, 50, 300⟩)], [], [], 0, 10⟩).2).2 = [1, 0] ∧
    received (.startedRefresh 0)
      (completeOk 2700000 202 1 (completeOk 2700000 201 0
        (arrive 200 "k" ⟨none, some 1000⟩
          (arrive 200 "k" ⟨none, some 1000⟩
            ⟨[("k", ⟨⟨7, some 100⟩, 50, 300⟩)], [], [], 0, 10⟩).2).2)) =
      some (.ok 10) ∧
    received (.startedRefresh 1)
      (completeOk 2700000 202 1 (completeOk 2700000 201 0
        (arrive 200 "k" ⟨none, some 1000⟩
          (arrive 200 "k" ⟨none, some 1000⟩
            ⟨[("k", ⟨⟨7, some 100⟩, 50, 300⟩)], [], [], 0, 10⟩).2).2)) =
      some (.ok 11) := by
  refine ⟨by decide, by decide, by decide, by decide, by decide⟩

/-! ### C9 — factory errors propagate to every coalesced waiter -/

/-- An arrival that joins an in-flight registered factory changes nothing. -/
theorem arrive_join (t : Int) (k : String) (opts : CacheOptions) (s : MState)
    (f : Nat) (hc : alookup k s.cache = none)
    (hp : alookup k s.pending = some f) :
    arrive t k opts s = (.joined f, s) := by
  simp [arrive, ttlGet, hc, hp]

/-- A first arrival on a cold key registers a pending flight and invokes
the factory. -/
theorem arrive_start (t : Int) (k : String) (opts : CacheOptions) (s : MState)
    (hc : alookup k s.cache = none) (hp : alookup k s.pending = none) :
    arrive t k opts s = (.started s.nextFlight,
      { s with pending := aset k s.nextFlight s.pending,
               flights := (s.nextFlight, .running k opts true) :: s.flights,
               nextFlight := s.nextFlight + 1 }) := by
  simp [arrive, ttlGet, hc, hp]

/-- While a registered flight is pending on a cold key, every further
arrival coalesces onto it, leaving the state untouched. -/
theorem processArrivals_coalesce (ts : List Int) (k : String)
    (opts : CacheOptions) : ∀ (s : MState) (f : Nat),
    alookup k s.cache = none → alookup k s.pending = some f →
    processArrivals ts k opts s = (ts.map (fun _ => .joined f), s) := by
  induction ts with
  | nil => intro s f _ _; rfl
  | cons t ts ih =>
      intro s f hc hp
      simp [processArrivals, arrive_join t k opts s f hc hp, ih s f hc hp]

/-- C9: if the factory passed to `getOrCreate` rejects, the error
propagates to the first-arriving caller and to every coalesced waiter, the
cache is unchanged (nothing is stored under any key), the pending marker is
released, and the next arrival for the key invokes the factory again. -/
theorem claim_C9_factory_error_propagation (t : Int) (ts : List Int)
    (k : String) (opts : CacheOptions) (s : MState) (e : Nat)
    (hc : alookup k s.cache = none) (hp : alookup k s.pending = none) :
    (processArrivals (t :: ts) k opts s).1 =
      .started s.nextFlight :: ts.map (fun _ => .joined s.nextFlight) ∧
    (∀ a ∈ (processArrivals (t :: ts) k opts s).1,
      received a (completeErr e s.nextFlight
        (processArrivals (t :: ts) k opts s).2) = some (.err e)) ∧
    (completeErr e s.nextFlight (processArrivals (t :: ts) k opts s).2).cache =
      s.cache ∧
    alookup k (completeErr e s.nextFlight
      (processArrivals (t :: ts) k opts s).2).pending = none ∧
    (∀ t₂, (arrive t₂ k opts (completeErr e s.nextFlight
        (processArrivals (t :: ts) k opts s).2)).1 =
      .started (completeErr e s.nextFlight
        (processArrivals (t :: ts) k opts s).2).nextFlight) := by
  have hfirst := arrive_start t k opts s hc hp
  set s₁ : MState :=
    { s with pending := aset k s.nextFlight s.pending,
             flights := (s.nextFlight, .running k opts true) :: s.flights,
             nextFlight := s.nextFlight + 1 } with hs₁
  have hrest := processArrivals_coalesce ts k opts s₁ s.nextFlight hc
    (alookup_aset_self k s.nextFlight s.pending)
  have hproc : processArrivals (t :: ts) k opts s =
      (.started s.nextFlight :: ts.map (fun _ => .joined s.nextFlight), s₁) := by
    simp [processArrivals, hfirst, hrest]
  have hflight : alookup s.nextFlight s₁.flights =
      some (.running k opts true) := by
    simp [hs₁, alookup]
  have hdone : completeErr e s.nextFlight s₁ =
      { s₁ with pending := aremove k s₁.pending,
                flights := aset s.nextFlight (.done k (.err e)) s₁.flights } := by
    simp [completeErr, hflight]
  rw [hproc]
  refine ⟨rfl, ?_, ?_, ?_, ?_⟩
  · intro a ha
    have hlook : alookup s.nextFlight
        (completeErr e s.nextFlight s₁).flights = some (.done k (.err e)) := by
      rw [hdone]
      exact alookup_aset_self _ _ _
    rcases List.mem_cons.mp ha with h | h
    · subst h; simp [received, hlook]
    · obtain ⟨_, _, h⟩ := List.mem_map.mp h
      subst h; simp [received, hlook]
  · rw [hdone]
  · rw [hdone]
    simpa [hs₁] using alookup_aremove_self k (aset k s.nextFlight s.pending)
  · intro t₂
    have hc₂ : alookup k (completeErr e s.nextFlight s₁).cache = none := by
      rw [hdone]; exact hc
    have hp₂ : alookup k (completeErr e s.nextFlight s₁).pending = none := by
      rw [hdone]
      simpa [hs₁] using alookup_aremove_self k (aset k s.nextFlight s.pending)
    rw [arrive_start t₂ k opts _ hc₂ hp₂]

/-- Witness for C9: three concurrent callers on a cold key, a rejecting
factory; all three receive the error `99`, nothing is cached, and a fourth
call starts a new flight. -/
theorem claim_C9_witness :
    (processArrivals [4, 5, 6] "k" ⟨none, none⟩ ⟨[], [], [], 0, 0⟩).1 =
      [.started 0, .joined 0, .joined 0] ∧
    received (.joined 0) (completeErr 99 0
      (processArrivals [4, 5, 6] "k" ⟨none, none⟩ ⟨[], [], [], 0, 0⟩).2) =
      some (.err 99) ∧
    (completeErr 99 0
      (processArrivals [4, 5, 6] "k" ⟨none, none⟩ ⟨[], [], [], 0, 0⟩).2).cache =
      [] := by
  obtain ⟨h₁, h₂, h₃, _, _⟩ := claim_C9_factory_error_propagation 4 [5, 6] "k"
    ⟨none, none⟩ ⟨[], [], [], 0, 0⟩ 99 rfl rfl
  exact ⟨h₁, h₂ (.joined 0) (by rw [h₁]; simp), h₃⟩

/-! ### C7 — canonical options hashing is key-order independent -/

theorem alookup_some_mem {κ α : Type} [DecidableEq κ] {k : κ} {v : α}
    {c : List (κ × α)} (h : alookup k c = some v) : (k, v) ∈ c := by
  induction c with
  | nil => simp [alookup] at h
  | cons kv rest ih =>
      obtain ⟨k₂, v₂⟩ := kv
      by_cases hk : k₂ = k
      · subst hk
        simp only [alookup, if_true, eq_self_iff_true, Option.some.injEq] at h
        rw [← h]; exact List.mem_cons_self _ _
      · simp only [alookup, hk, if_false] at h
        exact List.mem_cons_of_mem _ (ih h)

theorem mem_key_of_alookup_some {κ α : Type} [DecidableEq κ] {k : κ} {v : α}
    {c : List (κ × α)} (h : alookup k c = some v) : k ∈ c.map Prod.fst := by
  have := alookup_some_mem h
  exact List.mem_map.mpr ⟨(k, v), this, rfl⟩

theorem alookup_isSome_of_mem_key {κ α : Type} [DecidableEq κ] {k : κ}
    {c : List (κ × α)} (h : k ∈ c.map Prod.fst) :
    ∃ v, alookup k c = some v := by
  induction c with
  | nil => simp at h
  | cons kv rest ih =>
      obtain ⟨k₂, v₂⟩ := kv
      by_cases hk : k₂ = k
      · exact ⟨v₂, by simp [alookup, hk]⟩
      · simp only [List.map_cons, List.mem_cons] at h
        rcases h with h | h
        · exact absurd h.symm hk
        · obtain ⟨v, hv⟩ := ih h
          exact ⟨v, by simp [alookup, hk, hv]⟩

theorem deepEqList_length {xs ys : List JValue}
    (h : deepEqList xs ys = true) : xs.length = ys.length := by
  induction xs generalizing ys with
  | nil => cases ys with
      | nil => rfl
      | cons y ys => simp [deepEqList] at h
  | cons x xs ih =>
      cases ys with
      | nil => simp [deepEqList] at h
      | cons y ys =>
          simp only [deepEqList, Bool.and_eq_true] at h
          simp [ih h.2]

theorem deepEqFields_lookup {gs fs : List (String × JValue)}
    (h : deepEqFields gs fs = true) :
    ∀ k v, (k, v) ∈ fs →
      ∃ w, alookup k gs = some w ∧ deepEqMod v w = true := by
  induction fs with
  | nil => intro k v hm; simp at hm
  | cons kv rest ih =>
      obtain ⟨k₂, v₂⟩ := kv
      simp only [deepEqFields, Bool.and_eq_true] at h
      intro k v hm
      rcases List.mem_cons.mp hm with hh | hh
      · simp only [Prod.mk.injEq] at hh
        obtain ⟨hk, hv⟩ := hh
        subst hk; subst hv
        rcases hg : alookup k gs with _ | w
        · rw [hg] at h; simp at h
        · rw [hg] at h
          exact ⟨w, rfl, h.1⟩
      · exact ih h.2 k v hh

/-- Bool-level structure of `jwf` on objects. -/
theorem jwf_obj_elim {fs : List (String × JValue)}
    (h : jwf (.jobj fs) = true) :
    (fs.map Prod.fst).Nodup ∧ jwfFields fs = true := by
  simp only [jwf, Bool.and_eq_true, decide_eq_true_eq] at h
  exact h

theorem jwfFields_value {fs : List (String × JValue)}
    (h : jwfFields fs = true) :
    ∀ k v, (k, v) ∈ fs → jwf v = true := by
  induction fs with
  | nil => intro k v hm; simp at hm
  | cons kv rest ih =>
      obtain ⟨k₂, v₂⟩ := kv
      simp only [jwfFields, Bool.and_eq_true] at h
      intro k v hm
      rcases List.mem_cons.mp hm with hh | hh
      · simp only [Prod.mk.injEq] at hh
        rw [hh.2]; exact h.1
      · exact ih h.2 k v hh

theorem jwfList_mem {xs : List JValue} (h : jwfList xs = true) :
    ∀ x ∈ xs, jwf x = true := by
  induction xs with
  | nil => intro x hm; simp at hm
  | cons y ys ih =>
      simp only [jwfList, Bool.and_eq_true] at h
      intro x hm
      rcases List.mem_cons.mp hm with hh | hh
      · subst hh; exact h.1
      · exact ih h.2 x hh

/-- The object key lists of deeply-equal well-formed objects are
permutations of one another. -/
theorem keys_perm_of_deepEq {fs gs : List (String × JValue)}
    (hlen : fs.length = gs.length)
    (hde : deepEqFields gs fs = true)
    (hnd₁ : (fs.map Prod.fst).Nodup) (hnd₂ : (gs.map Prod.fst).Nodup) :
    (fs.map Prod.fst).Perm (gs.map Prod.fst) := by
  apply List.perm_of_nodup_nodup_toFinset_eq hnd₁ hnd₂
  apply Finset.eq_of_subset_of_card_le
  · intro k hk
    simp only [List.mem_toFinset] at hk ⊢
    obtain ⟨⟨k₂, v⟩, hm, hkeq⟩ := List.mem_map.mp hk
    subst hkeq
    obtain ⟨w, hw, _⟩ := deepEqFields_lookup hde _ _ hm
    exact mem_key_of_alookup_some hw
  · rw [List.toFinset_card_of_nodup hnd₁, List.toFinset_card_of_nodup hnd₂]
    simp [hlen]

/-- Rendered-fields lookup agrees with source-fields lookup. -/
theorem alookup_stringifyFields (K : List String) (k : String)
    (fs : List (String × JValue)) :
    alookup k (stringifyFields K fs) = (alookup k fs).map (stringifyR K) := by
  induction fs with
  | nil => rfl
  | cons kv rest ih =>
      obtain ⟨k₂, v⟩ := kv
      by_cases hk : k₂ = k
      · simp [stringifyFields, alookup, hk]
      · simp [stringifyFields, alookup, hk, ih]

theorem sizeOf_lt_of_mem_fields {k : String} {v : JValue}
    {fs : List (String × JValue)} (h : (k, v) ∈ fs) :
    sizeOf v < sizeOf (JValue.jobj fs) := by
  have h₁ := List.sizeOf_lt_of_mem h
  simp only [Prod.mk.sizeOf_spec] at h₁
  simp only [JValue.jobj.sizeOf_spec]
  omega

theorem sizeOf_lt_of_mem_arr {x : JValue} {xs : List JValue} (h : x ∈ xs) :
    sizeOf x < sizeOf (JValue.jarr xs) := by
  have h₁ := List.sizeOf_lt_of_mem h
  simp only [JValue.jarr.sizeOf_spec]
  omega

/-- Pointwise congruence for the array branch of the serializer. -/
theorem stringifyList_congr (K : List String) :
    ∀ (xs ys : List JValue),
      (∀ x ∈ xs, ∀ y : JValue, jwf x = true → jwf y = true →
        deepEqMod x y = true → stringifyR K x = stringifyR K y) →
      jwfList xs = true → jwfList ys = true → deepEqList xs ys = true →
      stringifyList K xs = stringifyList K ys := by
  intro xs
  induction xs with
  | nil =>
      intro ys _ _ _ hde
      cases ys with
      | nil => rfl
      | cons y ys => simp [deepEqList] at hde
  | cons x xs ih =>
      intro ys hrec hwx hwy hde
      cases ys with
      | nil => simp [deepEqList] at hde
      | cons y ys =>
          simp only [deepEqList, Bool.and_eq_true] at hde
          simp only [jwfList, Bool.and_eq_true] at hwx hwy
          have hhead := hrec x (List.mem_cons_self _ _) y hwx.1 hwy.1 hde.1
          have htail := ih ys
            (fun z hz w hwz hww hdw =>
              hrec z (List.mem_cons_of_mem _ hz) w hwz hww hdw)
            hwx.2 hwy.2 hde.2
          simp [stringifyList, hhead, htail]

/-- `JSON.stringify` with a fixed replacer array sends deeply-equal
(modulo key order) well-formed values to the same string. -/
theorem stringify_congr : ∀ (n : Nat) (a b : JValue) (K : List String),
    sizeOf a ≤ n → jwf a = true → jwf b = true → deepEqMod a b = true →
    stringifyR K a = stringifyR K b := by
  intro n
  induction n using Nat.strong_induction_on with
  | _ n ih =>
      intro a b K hsz hwa hwb hde
      cases a with
      | jnull => cases b <;> simp_all [deepEqMod]
      | jbool x =>
          cases b <;> simp_all [deepEqMod]
      | jnum x =>
          cases b <;> simp_all [deepEqMod]
      | jstr x =>
          cases b <;> simp_all [deepEqMod]
      | jarr xs =>
          cases b with
          | jarr ys =>
              simp only [deepEqMod] at hde
              simp only [jwf] at hwa hwb
              have hlist := stringifyList_congr K xs ys
                (fun x hx y hwx hwy hdxy => by
                  have hxlt : sizeOf x < n + 1 :=
                    lt_of_lt_of_le (sizeOf_lt_of_mem_arr hx)
                      (le_trans hsz (le_refl _)) |>.trans_le (by omega)
                  exact ih (sizeOf x)
                    (by
                      have := sizeOf_lt_of_mem_arr hx
                      omega)
                    x y K (le_refl _) hwx hwy hdxy)
                hwa hwb hde
              simp [stringifyR, hlist]
          | jnull => simp [deepEqMod] at hde
          | jbool _ => simp [deepEqMod] at hde
          | jnum _ => simp [deepEqMod] at hde
          | jstr _ => simp [deepEqMod] at hde
          | jobj _ => simp [deepEqMod] at hde
      | jobj fs =>
          cases b with
          | jobj gs =>
              simp only [deepEqMod, Bool.and_eq_true, beq_iff_eq] at hde
              obtain ⟨hlen, hdf⟩ := hde
              obtain ⟨hnd₁, hwf₁⟩ := jwf_obj_elim hwa
              obtain ⟨hnd₂, hwf₂⟩ := jwf_obj_elim hwb
              simp only [stringifyR]
              have hfields : ∀ k ∈ K,
                  (alookup k (stringifyFields K fs)).map
                    (fun rv => jsonQuote k ++ ":" ++ rv) =
                  (alookup k (stringifyFields K gs)).map
                    (fun rv => jsonQuote k ++ ":" ++ rv) := by
                intro k _
                rw [alookup_stringifyFields, alookup_stringifyFields]
                rcases hf : alookup k fs with _ | v
                · have hkf : ¬ k ∈ fs.map Prod.fst := by
                    intro hm
                    obtain ⟨v, hv⟩ := alookup_isSome_of_mem_key hm
                    rw [hf] at hv; exact Option.noConfusion hv
                  have hkg : ¬ k ∈ gs.map Prod.fst := fun hm =>
                    hkf ((keys_perm_of_deepEq hlen hdf hnd₁ hnd₂).mem_iff.mpr hm)
                  rw [alookup_eq_none_of_not_mem k gs hkg]
                · obtain ⟨w, hw, hdw⟩ :=
                    deepEqFields_lookup hdf k v (alookup_some_mem hf)
                  rw [hw]
                  have hwv : jwf v = true :=
                    jwfFields_value hwf₁ k v (alookup_some_mem hf)
                  have hww : jwf w = true :=
                    jwfFields_value hwf₂ k w (alookup_some_mem hw)
                  have hrender : stringifyR K v = stringifyR K w := by
                    have hvlt := sizeOf_lt_of_mem_fields (alookup_some_mem hf)
                    exact ih (sizeOf v) (by omega) v w K (le_refl _) hwv hww hdw
                  simp [hrender]
              rw [List.filterMap_congr hfields]
          | jnull => simp [deepEqMod] at hde
          | jbool _ => simp [deepEqMod] at hde
          | jnum _ => simp [deepEqMod] at hde
          | jstr _ => simp [deepEqMod] at hde
          | jarr _ => simp [deepEqMod] at hde

/-- Deeply-equal well-formed values have the same sorted key list. -/
theorem sortedKeys_eq_of_deepEq {a b : JValue}
    (hwa : jwf a = true) (hwb : jwf b = true) (hde : deepEqMod a b = true) :
    (jsKeys a).insertionSort (· ≤ ·) = (jsKeys b).insertionSort (· ≤ ·) := by
  cases a with
  | jnull => cases b <;> simp_all [deepEqMod]
  | jbool x => cases b <;> simp_all [deepEqMod, jsKeys]
  | jnum x => cases b <;> simp_all [deepEqMod, jsKeys]
  | jstr x =>
      cases b <;> simp_all [deepEqMod, jsKeys]
  | jarr xs =>
      cases b with
      | jarr ys =>
          simp only [deepEqMod] at hde
          simp [jsKeys, deepEqList_length hde]
      | jnull => simp [deepEqMod] at hde
      | jbool _ => simp [deepEqMod] at hde
      | jnum _ => simp [deepEqMod] at hde
      | jstr _ => simp [deepEqMod] at hde
      | jobj _ => simp [deepEqMod] at hde
  | jobj fs =>
      cases b with
      | jobj gs =>
          simp only [deepEqMod, Bool.and_eq_true, beq_iff_eq] at hde
          obtain ⟨hlen, hdf⟩ := hde
          obtain ⟨hnd₁, _⟩ := jwf_obj_elim hwa
          obtain ⟨hnd₂, _⟩ := jwf_obj_elim hwb
          have hperm : (jsKeys (JValue.jobj fs)).Perm (jsKeys (JValue.jobj gs)) := by
            simpa [jsKeys] using keys_perm_of_deepEq hlen hdf hnd₁ hnd₂
          exact List.eq_of_perm_of_sorted
            ((List.perm_insertionSort _ _).trans
              (hperm.trans (List.perm_insertionSort _ _).symm))
            (List.sorted_insertionSort _ _) (List.sorted_insertionSort _ _)
      | jnull => simp [deepEqMod] at hde
      | jbool _ => simp [deepEqMod] at hde
      | jnum _ => simp [deepEqMod] at hde
      | jstr _ => simp [deepEqMod] at hde
      | jarr _ => simp [deepEqMod] at hde

/-- `serializeOptions` respects deep equality modulo key order. -/
theorem serializeOptions_congr (digest : String → String) {a b : JValue}
    (hwa : jwf a = true) (hwb : jwf b = true) (hde : deepEqMod a b = true) :
    serializeOptions digest a = serializeOptions digest b := by
  have hstr : stringifyR ((jsKeys a).insertionSort (· ≤ ·)) a =
      stringifyR ((jsKeys b).insertionSort (· ≤ ·)) b := by
    rw [sortedKeys_eq_of_deepEq hwa hwb hde]
    exact stringify_congr (sizeOf a) a b _ (le_refl _) hwa hwb hde
  cases a with
  | jnull => cases b <;> simp_all [deepEqMod, serializeOptions]
  | jbool x => cases b <;> simp_all [deepEqMod, serializeOptions,
      createStableCacheKey]
  | jnum x => cases b <;> simp_all [deepEqMod, serializeOptions,
      createStableCacheKey]
  | jstr x => cases b <;> simp_all [deepEqMod, serializeOptions,
      createStableCacheKey]
  | jarr xs => cases b <;> simp_all [deepEqMod, serializeOptions,
      createStableCacheKey]
  | jobj fs => cases b <;> simp_all [deepEqMod, serializeOptions,
      createStableCacheKey]

/-- C7: for any two well-formed options values that are deeply equal
modulo object key order (recursively, arrays included), the serialized
options hash is identical, and hence — for a factory without a fingerprint,
the path that uses the canonical serialization — the derived raw cache key
and stored cache key coincide, so `getClient` with either value resolves to
the same cache entry. -/
theorem claim_C7_options_hash_key_order (digest : String → String)
    (keyPrefix : String) (ctx : AuthContext) (a b : JValue)
    (hwa : jwf a = true) (hwb : jwf b = true) (hde : deepEqMod a b = true) :
    serializeOptions digest a = serializeOptions digest b ∧
    generateRawCacheKey digest none keyPrefix ctx (some a) =
      generateRawCacheKey digest none keyPrefix ctx (some b) ∧
    (generateRawCacheKey digest none keyPrefix ctx (some a)).map
        (createStableCacheKey digest) =
      (generateRawCacheKey digest none keyPrefix ctx (some b)).map
        (createStableCacheKey digest) := by
  have hser := serializeOptions_congr digest hwa hwb hde
  refine ⟨hser, ?_, ?_⟩
  · simp [generateRawCacheKey, Option.bind, hser]
  · simp [generateRawCacheKey, Option.bind, hser]

/-- Witness for C7 at two concrete nested objects differing only in key
order. -/
theorem claim_C7_witness :
    jwf (.jobj [("b", .jnum 1),
      ("a", .jobj [("y", .jnum 2), ("x", .jnum 3)])]) = true ∧
    deepEqMod
      (.jobj [("b", .jnum 1), ("a", .jobj [("y", .jnum 2), ("x", .jnum 3)])])
      (.jobj [("a", .jobj [("x", .jnum 3), ("y", .jnum 2)]), ("b", .jnum 1)]) =
      true ∧
    serializeOptions id
        (.jobj [("b", .jnum 1), ("a", .jobj [("y", .jnum 2), ("x", .jnum 3)])]) =
      serializeOptions id
        (.jobj [("a", .jobj [("x", .jnum 3), ("y", .jnum 2)]), ("b", .jnum 1)]) := by
  refine ⟨by decide, by decide, ?_⟩
  exact (claim_C7_options_hash_key_order id "client" .application
    (.jobj [("b", .jnum 1), ("a", .jobj [("y", .jnum 2), ("x", .jnum 3)])])
    (.jobj [("a", .jobj [("x", .jnum 3), ("y", .jnum 2)]), ("b", .jnum 1)])
    (by decide) (by decide) (by decide)).1

end AzureClientPool
